import Mathlib

/-!
# ngx-locator: verification of the resolution pipeline

Shallow embedding of the core of the `ngx-locator` repository:

* `src/browser/index.ts` — identity resolver (`calculatePathRelevance`,
  `selectBestMatchingFile`, `getClassNameCandidates`,
  `getComponentInfoByClassName`);
* `src/node/file-opener.ts` — content search ranker (`findBestLineInFile`)
  and open dispatcher (`launchInEditor`);
* `src/node/cmp-scan.ts` — source index builder and change-detection cache.

JavaScript strings are modeled as `List Char`; JavaScript objects used as
string-keyed dictionaries are modeled as association lists in insertion
order; JavaScript numbers carrying search scores are modeled as `Nat` in
half-point units (all scores involved are exact multiples of 1/2, computed
exactly by IEEE doubles, so doubling preserves every comparison);
file-system reads are modeled as `Option`-valued inputs; exceptions are
modeled with `Except`.
-/

namespace NgxLocator

/-! ## JavaScript string primitives -/

/-- JavaScript `String.prototype.toLowerCase`, restricted to the
simple one-to-one case conversion (adequate for ASCII data). -/
def jsToLower (s : List Char) : List Char :=
  s.map Char.toLower

/-- JavaScript `a.split(sep)` for a one-character separator `sep`. -/
def jsSplit (sep : Char) (s : List Char) : List (List Char) :=
  s.splitOn sep

/-- JavaScript `path.split('/').filter(Boolean)`: split on `/` and drop
empty segments. -/
def splitSegments (s : List Char) : List (List Char) :=
  (jsSplit '/' s).filter (fun seg => !seg.isEmpty)

/-- JavaScript `hay.includes(needle)`: substring test. -/
def jsIncludes (hay needle : List Char) : Bool :=
  hay.tails.any (fun t => needle.isPrefixOf t)

/-- JavaScript `s.startsWith(p)`. -/
def jsStartsWith (s p : List Char) : Bool :=
  p.isPrefixOf s

/-! ## Identity resolver: `calculatePathRelevance` (browser/index.ts:112) -/

/-- `src/browser/index.ts` `calculatePathRelevance`: additive relevance of a
file path against the current URL path.  +10 per URL segment present as a
whole segment of the file path, +20 per adjacent URL-segment pair whose
joined form occurs as a substring of the file path, +30 if the last URL
segment occurs case-insensitively anywhere in the file path. -/
def calculatePathRelevance (filePath currentUrl : List Char) : Nat :=
  let urlSegments := splitSegments currentUrl
  let fileSegments := splitSegments filePath
  let score := 0
  let score := score + 10 * (urlSegments.filter (fun seg => fileSegments.contains seg)).length
  let score := score +
    20 * ((urlSegments.zip urlSegments.tail).filter
      (fun p => jsIncludes filePath (p.1 ++ '/' :: p.2))).length
  let score :=
    match urlSegments.getLast? with
    | some lastSeg =>
        if jsIncludes (jsToLower filePath) (jsToLower lastSeg) then score + 30 else score
    | none => score
  score

/-- The scan loop of `selectBestMatchingFile`: fold over the remaining
candidates keeping the best score seen so far (`score > bestScore` updates,
so ties keep the earlier candidate). -/
def selectLoop (currentUrl : List Char) :
    List (List Char) → List Char → Int → List Char
  | [], bestMatch, _ => bestMatch
  | f :: rest, bestMatch, bestScore =>
      if (calculatePathRelevance f currentUrl : Int) > bestScore then
        selectLoop currentUrl rest f (calculatePathRelevance f currentUrl)
      else
        selectLoop currentUrl rest bestMatch bestScore

/-- `src/browser/index.ts` `selectBestMatchingFile`: pick the candidate file
with the highest relevance against the current URL (`window.location.pathname`
is passed here explicitly as `currentUrl`).  A single candidate is returned
directly; otherwise the loop starts from `bestMatch = candidates[0]`,
`bestScore = -1`.  The empty list (JavaScript would yield `undefined`) is
mapped to the empty string. -/
def selectBestMatchingFile (candidates : List (List Char)) (currentUrl : List Char) :
    List Char :=
  match candidates with
  | [] => []
  | [c] => c
  | c :: rest => selectLoop currentUrl (c :: rest) c (-1)

/-! ## Identity resolver: component map lookup (browser/index.ts:162) -/

/-- `CmpInfo` from `src/browser/index.ts` / `src/node/cmp-scan.ts`. -/
structure CmpInfo where
  className : List Char
  filePath : List Char
  templateUrl : Option (List Char)
deriving DecidableEq, Repr

/-- `CmpMap` from `src/browser/index.ts`: both records are JavaScript
objects, modeled as association lists in insertion order. -/
structure CmpMap where
  detailByFilePath : List (List Char × CmpInfo)
  filePathsByClassName : List (List Char × List (List Char))
deriving DecidableEq, Repr

/-- First-match association-list lookup (JavaScript property access on an
object with distinct keys). -/
def assocLookup {α : Type} (m : List (List Char × α)) (k : List Char) : Option α :=
  m.lookup k

/-- `src/browser/index.ts` `getClassNameCandidates`: the identifier as
given, then the identifier with the leading run of `_` stripped
(`className.replace(/^_+/, '')`); empty strings are falsy and skipped by
`push`, and duplicates are not pushed twice. -/
def getClassNameCandidates (className : List Char) : List (List Char) :=
  let push := fun (acc : List (List Char)) (value : List Char) =>
    if value.isEmpty then acc
    else if acc.contains value then acc
    else acc ++ [value]
  let candidates : List (List Char) := []
  let candidates := push candidates className
  let trimmed := className.dropWhile (fun c => c = '_')
  let candidates := push candidates trimmed
  candidates

/-- The `for (const candidate of classNameCandidates)` loop of
`getComponentInfoByClassName`: skip candidates with no file paths
(`!candidates?.length`), otherwise select the best file and look its
record up; a missing record (`?? null`) moves on to the next candidate. -/
def resolveLoop (m : CmpMap) (currentUrl : List Char) :
    List (List Char) → Option CmpInfo
  | [] => none
  | cand :: rest =>
      match assocLookup m.filePathsByClassName cand with
      | none => resolveLoop m currentUrl rest
      | some [] => resolveLoop m currentUrl rest
      | some (c :: cs) =>
          let filePath := selectBestMatchingFile (c :: cs) currentUrl
          match assocLookup m.detailByFilePath filePath with
          | some info => some info
          | none => resolveLoop m currentUrl rest

/-- `src/browser/index.ts` `getComponentInfoByClassName` for a loaded,
non-null component map (`CMP_MAP`); `currentUrl` stands for
`window.location.pathname` read by `selectBestMatchingFile`. -/
def getComponentInfoByClassName (m : CmpMap) (currentUrl className : List Char) :
    Option CmpInfo :=
  resolveLoop m currentUrl (getClassNameCandidates className)

/-! ## Content search ranker: `findBestLineInFile` (node/file-opener.ts:161)

The ranker builds a JavaScript regular expression
`new RegExp('\\b' + escaped + '\\b')` per clue.  The regular-expression
engine is a platform builtin (an external collaborator), modeled here on
the fragment of patterns the program can build: word-boundary assertions
`\b`, identity escapes, literal characters, and plain groups.  Every
construct outside this fragment (quantifiers, character classes, dot,
anchors, alternation, class-like escapes) is modeled as construction
failure; this includes every pattern that is an actual JavaScript
`SyntaxError` (a quantifier with nothing to repeat, an unterminated class
or group).  On the concrete inputs evaluated in the theorems below the
model agrees with the engine. -/

instance {ε α : Type} [DecidableEq ε] [DecidableEq α] : DecidableEq (Except ε α)
  | .error e, .error f =>
      if h : e = f then .isTrue (by rw [h]) else .isFalse (by intro hh; cases hh; exact h rfl)
  | .error _, .ok _ => .isFalse (by intro h; cases h)
  | .ok _, .error _ => .isFalse (by intro h; cases h)
  | .ok a, .ok b =>
      if h : a = b then .isTrue (by rw [h]) else .isFalse (by intro hh; cases hh; exact h rfl)

/-- A compiled token of the modeled regular-expression fragment. -/
inductive RTok where
  | lit : Char → RTok
  | boundary : RTok
deriving DecidableEq, Repr

/-- JavaScript `\w` without the unicode flag: `[A-Za-z0-9_]`. -/
def isWordChar (c : Char) : Bool :=
  ('a' ≤ c && c ≤ 'z') || ('A' ≤ c && c ≤ 'Z') || ('0' ≤ c && c ≤ '9') || c = '_'

/-- Wordness of the character at one side of a position; a string edge
counts as non-word. -/
def optWordChar : Option Char → Bool
  | some c => isWordChar c
  | none => false

/-- Match a token sequence at a fixed position, given the character just
before the position (`prev`) and the rest of the subject. -/
def matchToks : List RTok → Option Char → List Char → Bool
  | [], _, _ => true
  | .boundary :: ts, prev, rest =>
      (optWordChar prev != optWordChar rest.head?) && matchToks ts prev rest
  | .lit _ :: _, _, [] => false
  | .lit c :: ts, _, x :: xs => x == c && matchToks ts (some x) xs

/-- Try to match the token sequence at the current position or at any later
position of the subject. -/
def regexTestFrom (ts : List RTok) : Option Char → List Char → Bool
  | prev, rest =>
      matchToks ts prev rest ||
        match rest with
        | [] => false
        | x :: xs => regexTestFrom ts (some x) xs

/-- JavaScript `RegExp.prototype.test` for a compiled token sequence. -/
def regexTest (ts : List RTok) (line : List Char) : Bool :=
  regexTestFrom ts none line

/-- Escape sequences `\c` whose `c` has a special regex meaning (character
classes, control/hex/unicode escapes, backreferences); conservatively
rejected by the pattern compiler. -/
def classLikeEscapes : List Char :=
  ['B', 'd', 'D', 's', 'S', 'w', 'W', 'f', 'n', 'r', 't', 'v', 'c', 'x', 'u',
   'k', 'p', 'P', '0', '1', '2', '3', '4', '5', '6', '7', '8', '9']

/-- Characters that are special outside an escape in the modeled fragment:
any of them makes construction fail (conservatively; for `*`, `+`, `?`
right after `\b` and for unterminated `[` this is exactly the JavaScript
`SyntaxError` behavior). -/
def bareSpecials : List Char :=
  ['*', '+', '?', '{', '}', '[', ']', '^', '$', '|', '.']

/-- Compile a pattern string of the modeled fragment into tokens;
`depth` tracks open groups.  `.error` models a `SyntaxError` thrown by
`new RegExp` (or a pattern outside the modeled fragment). -/
def compileSeq : List Char → Nat → Except Unit (List RTok)
  | [], 0 => .ok []
  | [], _ + 1 => .error ()
  | '\\' :: rest, d =>
      match rest with
      | [] => .error ()
      | c :: rest2 =>
          if c = 'b' then
            match compileSeq rest2 d with
            | .error e => .error e
            | .ok ts => .ok (.boundary :: ts)
          else if classLikeEscapes.contains c then .error ()
          else
            match compileSeq rest2 d with
            | .error e => .error e
            | .ok ts => .ok (.lit c :: ts)
  | '(' :: rest, d => compileSeq rest (d + 1)
  | ')' :: rest, d =>
      match d with
      | 0 => .error ()
      | d + 1 => compileSeq rest d
  | c :: rest, d =>
      if bareSpecials.contains c then .error ()
      else
        match compileSeq rest d with
        | .error e => .error e
        | .ok ts => .ok (.lit c :: ts)

/-- The clue-escaping step of `findBestLineInFile`
(`lowerTerm.replace(/[.*+?^${}()|[\\]\\]/g, '\\$&')`).  The character
class of that pattern ends at the first unescaped `]`, so the regular
expression matches a special character *followed by the two characters*
`\]` — not a lone special character.  Each (non-overlapping) match `c\]`
is replaced by `\c\]` (`'\\$&'`). -/
def brokenEscapeFuel : Nat → List Char → List Char
  | 0, l => l
  | _ + 1, [] => []
  | fuel + 1, c :: rest =>
      match rest with
      | '\\' :: ']' :: rest2 =>
          if ['.', '*', '+', '?', '^', '$', '{', '}', '(', ')', '|', '[', '\\'].contains c then
            '\\' :: c :: '\\' :: ']' :: brokenEscapeFuel fuel rest2
          else
            c :: brokenEscapeFuel fuel rest
      | _ => c :: brokenEscapeFuel fuel rest

/-- Entry point of the replace scan; every step consumes at least one
character, so the input length is enough fuel. -/
def brokenEscape (l : List Char) : List Char :=
  brokenEscapeFuel l.length l

/-- `new RegExp('\\b' + escaped + '\\b').test(lowerLine)` as performed by
`findBestLineInFile`, including the broken escaping step; `.error` models
the `SyntaxError` escaping the scoring loops. -/
def jsWordBoundaryTest (lowerTerm lowerLine : List Char) : Except Unit Bool := do
  let toks ← compileSeq ('\\' :: 'b' :: brokenEscape lowerTerm ++ ['\\', 'b']) 0
  .ok (regexTest toks lowerLine)

/-- JavaScript `String.prototype.trim` (whitespace from both ends). -/
def jsTrim (s : List Char) : List Char :=
  ((s.dropWhile Char.isWhitespace).reverse.dropWhile Char.isWhitespace).reverse

/-- Score contribution of one clue (with its weight) to one line:
`weight × 2` for a case-insensitive substring hit, additionally
`weight × 3` for a word-boundary regex hit, additionally `weight × 1.5`
when the trimmed line starts with the clue.  The regex is only built
inside the substring branch, exactly as in the source.

Scores are stored in *half-points*: the JavaScript contributions
`weight*2`, `weight*3`, `weight*1.5` become `4*weight`, `6*weight`,
`3*weight`.  Every value the JavaScript code computes here is an exact
integer multiple of 0.5 (well inside IEEE-double exactness), so doubling
is an order- and zero-preserving exact rescaling: the selected line is
identical. -/
def termLineContribution (weight : Nat) (term line : List Char) : Except Unit Nat :=
  let lowerLine := jsToLower line
  let lowerTerm := jsToLower term
  if jsIncludes lowerLine lowerTerm then do
    let wordHit ← jsWordBoundaryTest lowerTerm lowerLine
    let s : Nat := 4 * weight
    let s := if wordHit then s + 6 * weight else s
    let s := if jsStartsWith (jsTrim lowerLine) lowerTerm then s + 3 * weight else s
    .ok s
  else
    .ok 0

/-- Effectful map over a list in `Except`: the first thrown exception
aborts the whole traversal (the behavior of an exception escaping the
nested `forEach` loops). -/
def mapExcept {α β : Type} (f : α → Except Unit β) : List α → Except Unit (List β)
  | [] => .ok []
  | x :: xs =>
      match f x with
      | .error e => .error e
      | .ok y =>
          match mapExcept f xs with
          | .error e => .error e
          | .ok ys => .ok (y :: ys)

/-- Accumulated score of one line over all weighted clues. -/
def lineScore (weightedTerms : List (Nat × List Char)) (line : List Char) :
    Except Unit Nat :=
  weightedTerms.foldlM (fun acc p => do
    let c ← termLineContribution p.1 p.2 line
    .ok (acc + c)) (0 : Nat)

/-- The clue weights of `findBestLineInFile`:
`Math.max(1, searchTerms.length - termIndex)`. -/
def weightedClues (searchTerms : List (List Char)) : List (Nat × List Char) :=
  searchTerms.enum.map (fun p => (max 1 (searchTerms.length - p.1), p.2))

/-- One step of the final selection loop of `findBestLineInFile`:
`if (score > bestScore) { bestScore = score; bestLine = index + 1 }`. -/
def bestStep (st p : Nat × Nat) : Nat × Nat :=
  if p.2 > st.2 then (p.1 + 1, p.2) else st

/-- The final selection loop of `findBestLineInFile`: `bestLine = 1`,
`bestScore = 0`, strict improvement updates, and the fallback to line 1
when no line scores above zero. -/
def bestLineFold (scores : List Nat) : Nat :=
  let r := scores.enum.foldl bestStep (1, (0 : Nat))
  if r.2 > 0 then r.1 else 1

/-- `src/node/file-opener.ts` `findBestLineInFile`.  `fileContent = none`
models `fs.readFileSync` throwing (missing/unreadable file); the outer
`try`/`catch` maps both a read failure and a `SyntaxError` thrown during
scoring to line 1. -/
def findBestLineInFile (fileContent : Option (List Char))
    (searchTerms : List (List Char)) : Nat :=
  match fileContent with
  | none => 1
  | some content =>
      let lines := jsSplit '\n' content
      match mapExcept (lineScore (weightedClues searchTerms)) lines with
      | .error _ => 1
      | .ok scores => bestLineFold scores

/-! Spec-side ranker, stated from the specification's words (§4.4), used to
exhibit divergences: the whole-word bonus tests the clue's *literal* text
with word boundaries, and the ranking never aborts. -/

/-- Whole-word boundary match of the literal clue text (the behavior of a
*correctly escaped* clue between two `\b`). -/
def specWholeWordMatch (lowerTerm lowerLine : List Char) : Bool :=
  regexTest (.boundary :: lowerTerm.map RTok.lit ++ [.boundary]) lowerLine

/-- Score of one line under the specification's scoring rules. -/
def specLineScore (weightedTerms : List (Nat × List Char)) (line : List Char) : Nat :=
  weightedTerms.foldl (fun acc p =>
    let lowerLine := jsToLower line
    let lowerTerm := jsToLower p.2
    if jsIncludes lowerLine lowerTerm then
      let s : Nat := 4 * p.1
      let s := if specWholeWordMatch lowerTerm lowerLine then s + 6 * p.1 else s
      let s := if jsStartsWith (jsTrim lowerLine) lowerTerm then s + 3 * p.1 else s
      acc + s
    else acc) (0 : Nat)

/-- The content search ranker as the specification describes it. -/
def specFindBestLine (content : List Char) (searchTerms : List (List Char)) : Nat :=
  bestLineFold ((jsSplit '\n' content).map (specLineScore (weightedClues searchTerms)))

/-! ## Source index builder (node/cmp-scan.ts:155) -/

/-- One `Component`-decorated class found by the structural extractor
(ts-morph, an external collaborator per the spec) in a scanned file:
its class name (possibly empty when `getName()` yields none, skipped by
the builder) and its already-resolved absolute template path, if any. -/
structure ScannedClass where
  className : List Char
  templateUrl : Option (List Char)
deriving DecidableEq, Repr

/-- One scanned source file: its absolute file path (ts-morph returns
absolute paths, and `path.resolve` on an absolute path is the identity)
and the component classes found in it, in file order. -/
structure ScannedFile where
  filePath : List Char
  classes : List ScannedClass
deriving DecidableEq, Repr

/-- JavaScript object assignment `obj[k] = v`: replace the value in place
when the key exists, else append the new key in insertion order. -/
def jsObjSet {α : Type} (m : List (List Char × α)) (k : List Char) (v : α) :
    List (List Char × α) :=
  match m with
  | [] => [(k, v)]
  | (k1, v1) :: rest =>
      if k1 = k then (k, v) :: rest else (k1, v1) :: jsObjSet rest k v

/-- The per-class body of the scan loop of `cmp-scan.ts` `main`:
classes without a name are skipped; `detailByFilePath[absTs]` is
assigned (keyed by the file path alone), and the file path is appended
under the class name in `filePathsByClassName` unless already present. -/
def scanClassStep (fp : List Char)
    (st : List (List Char × CmpInfo) × List (List Char × List (List Char)))
    (c : ScannedClass) :
    List (List Char × CmpInfo) × List (List Char × List (List Char)) :=
  if c.className.isEmpty then st
  else
    let detail := jsObjSet st.1 fp ⟨c.className, fp, c.templateUrl⟩
    let prev := (assocLookup st.2 c.className).getD []
    let entry := if prev.contains fp then prev else prev ++ [fp]
    (detail, jsObjSet st.2 c.className entry)

/-- The per-file body of the scan loop: fold the file's component classes
into the maps. -/
def scanFileStep
    (st : List (List Char × CmpInfo) × List (List Char × List (List Char)))
    (f : ScannedFile) :
    List (List Char × CmpInfo) × List (List Char × List (List Char)) :=
  f.classes.foldl (scanClassStep f.filePath) st

/-- The index-building section of `cmp-scan.ts` `main` (lines 155–196):
fold over the scanned files and their component classes, building
`detailByFilePath` and `filePathsByClassName`. -/
def buildIndex (files : List ScannedFile) :
    List (List Char × CmpInfo) × List (List Char × List (List Char)) :=
  files.foldl scanFileStep ([], [])

/-! ## Change-detection cache (node/cmp-scan.ts:141) -/

/-- JavaScript truthiness of `cache[p]` / `stats[p]`: a present, non-zero
timestamp (`0` and `undefined` are both falsy). -/
def jsTruthyNum : Option Nat → Bool
  | some t => t != 0
  | none => false

/-- The freshness decision of `cmp-scan.ts` `main`: `true` means the scan
short-circuits (`process.exit(0)`) without rebuilding or writing anything.
`stats` is the `getFileStats` result for the candidate files, `previousCache`
the parsed cache file, `filePaths` the candidate file list, and
`indexFileExists` is `fs.existsSync(outFile)`. -/
def scanSkips (stats previousCache : List (List Char × Nat))
    (filePaths : List (List Char)) (indexFileExists : Bool) : Bool :=
  let statL := fun p => assocLookup stats p
  let prevL := fun p => assocLookup previousCache p
  let hasChanges := filePaths.any fun p =>
    !(jsTruthyNum (prevL p)) || (prevL p != statL p)
  let cachedPaths := previousCache.map Prod.fst
  let hasNewOrDeletedFiles :=
    (filePaths.length != cachedPaths.length) ||
    (filePaths.any fun p => !(jsTruthyNum (prevL p))) ||
    (cachedPaths.any fun q => !(jsTruthyNum (statL q)))
  !hasChanges && !hasNewOrDeletedFiles && indexFileExists

/-- The clean condition as the specification's words state it: the index
file exists, the candidate set has the cached set's size, every candidate
timestamp is present in and equal to the cached one, and every cached file
is still present. -/
def specCacheClean (stats previousCache : List (List Char × Nat))
    (filePaths : List (List Char)) (indexFileExists : Bool) : Prop :=
  indexFileExists = true ∧
  filePaths.length = previousCache.length ∧
  (∀ p ∈ filePaths,
     assocLookup previousCache p ≠ none ∧
     assocLookup previousCache p = assocLookup stats p) ∧
  (∀ q ∈ previousCache.map Prod.fst, assocLookup stats q ≠ none)

instance (stats previousCache : List (List Char × Nat))
    (filePaths : List (List Char)) (indexFileExists : Bool) :
    Decidable (specCacheClean stats previousCache filePaths indexFileExists) := by
  unfold specCacheClean
  infer_instance

/-- `getFileStats`: stat every candidate file, skipping files that
disappeared (`statSync` throws); `fsTimes` is the live file system's
mtime table. -/
def getFileStats (fsTimes : List (List Char × Nat)) (filePaths : List (List Char)) :
    List (List Char × Nat) :=
  filePaths.foldl (fun acc p =>
    match assocLookup fsTimes p with
    | some t => jsObjSet acc p t
    | none => acc) []

/-- The two files persisted by the indexing subsystem. -/
structure ScanStore where
  indexFile : Option (List (List Char × CmpInfo) × List (List Char × List (List Char)))
  cacheFile : List (List Char × Nat)
deriving DecidableEq, Repr

/-- One run of `cmp-scan.ts` `main` over a file system whose candidate
files are `files` (with live timestamps `fsTimes`), against the persisted
store: either the short-circuit (store untouched) or a full rebuild
followed by a cache commit. -/
def scanMain (fsTimes : List (List Char × Nat)) (files : List ScannedFile)
    (st : ScanStore) : ScanStore :=
  let filePaths := files.map (fun f => f.filePath)
  let stats := getFileStats fsTimes filePaths
  if scanSkips stats st.cacheFile filePaths st.indexFile.isSome then st
  else
    { indexFile := some (buildIndex files), cacheFile := stats }

/-! ## Commit ordering (node/cmp-scan.ts:198) -/

/-- `fs.writeFileSync(outFile, ...)`: succeeds and replaces the index
file, or throws (modeled by `writeOk = false`), in which case `main`
rejects and nothing after it runs. -/
def writeIndexOp (writeOk : Bool)
    (content : List (List Char × CmpInfo) × List (List Char × List (List Char)))
    (st : ScanStore) : Except Unit ScanStore :=
  if writeOk then .ok { st with indexFile := some content } else .error ()

/-- `saveCache(currentStats)`: overwrite the cache file. -/
def saveCacheOp (cache : List (List Char × Nat)) (st : ScanStore) : ScanStore :=
  { st with cacheFile := cache }

/-- The persistence tail of `cmp-scan.ts` `main`: write the index, then
(only if that succeeded) overwrite the cache with the current stats.  The
result pairs the store as left on disk with the cycle's success; on an
index-write failure the exception propagates (`main().catch` exits the
process) and `saveCache` never runs, so the store keeps its previous
content. -/
def commitPhase (writeOk : Bool)
    (content : List (List Char × CmpInfo) × List (List Char × List (List Char)))
    (currentStats : List (List Char × Nat)) (st : ScanStore) :
    ScanStore × Bool :=
  match writeIndexOp writeOk content st with
  | .error _ => (st, false)
  | .ok st1 => (saveCacheOp currentStats st1, true)

/-! ## Open dispatcher: `launchInEditor` (node/file-opener.ts:129) -/

/-- One `childProcess.spawn(cmd, args, ...)` invocation. -/
structure SpawnCall where
  cmd : List Char
  args : List (List Char)
deriving DecidableEq, Repr

/-- The dispatcher's environment: the `EDITOR_CMD` override (`none` also
covers the empty string, which is falsy), the `which`-based CLI detection
(`checkEditorCLI`), and whether a given spawn succeeds or throws. -/
structure EditorEnv where
  editorCmd : Option (List Char)
  cliPresent : List Char → Bool
  spawnOk : List Char → List (List Char) → Bool

/-- `COMMAND_TEMPLATES` from `file-opener.ts`: per-editor command
construction, with a CLI branch (`--goto` / `--line`/`--column`) and a
macOS `open -a` fallback on the bare file path. -/
def commandTemplate (cli : List Char → Bool) (editor file : List Char) :
    Option (List Char × List (List Char)) :=
  if editor = "cursor".toList then
    some (if cli "cursor".toList then
            ("cursor".toList, ["--goto".toList, file])
          else
            ("open".toList, ["-a".toList, "Cursor".toList, (jsSplit ':' file).headD []]))
  else if editor = "code".toList then
    some (if cli "code".toList then
            ("code".toList, ["--goto".toList, file])
          else
            ("open".toList,
             ["-a".toList, "Visual Studio Code".toList, (jsSplit ':' file).headD []]))
  else if editor = "webstorm".toList then
    some (if cli "webstorm".toList then
            let parts := jsSplit ':' file
            let filePath := parts.headD []
            let line := (parts.drop 1).headD []
            let col := (parts.drop 2).headD []
            ("webstorm".toList,
             [filePath] ++ (if line.isEmpty then [] else ["--line".toList, line]) ++
               (if col.isEmpty then [] else ["--column".toList, col]))
          else
            ("open".toList, ["-a".toList, "WebStorm".toList, (jsSplit ':' file).headD []]))
  else none

/-- `tryRun(editor)`: no template means `false` without spawning;
otherwise one spawn, whose outcome is the result.  The second component
records the spawn calls made. -/
def tryRunEditor (env : EditorEnv) (file editor : List Char) : Bool × List SpawnCall :=
  match commandTemplate env.cliPresent editor file with
  | none => (false, [])
  | some (cmd, args) => (env.spawnOk cmd args, [⟨cmd, args⟩])

/-- `src/node/file-opener.ts` `launchInEditor`: the `EDITOR_CMD` override
first (its command split on spaces, the target appended); on its failure
or absence, the preferred editor, then — if the fallback editor name is
truthy — the fallback editor, each at most once.  Returns the reported
success and the trace of spawn calls in order. -/
def launchInEditor (env : EditorEnv) (fileWithPos preferred fallbackEditor : List Char) :
    Bool × List SpawnCall :=
  let chain : List SpawnCall → Bool × List SpawnCall := fun t0 =>
    let r1 := tryRunEditor env fileWithPos preferred
    if r1.1 then (true, t0 ++ r1.2)
    else if !fallbackEditor.isEmpty then
      let r2 := tryRunEditor env fileWithPos fallbackEditor
      (r2.1, t0 ++ r1.2 ++ r2.2)
    else (false, t0 ++ r1.2)
  match env.editorCmd with
  | some ec =>
      let parts := jsSplit ' ' ec
      let cmd := parts.headD []
      let rest := parts.tail
      if env.spawnOk cmd (rest ++ [fileWithPos]) then
        (true, [⟨cmd, rest ++ [fileWithPos]⟩])
      else
        chain [⟨cmd, rest ++ [fileWithPos]⟩]
  | none => chain []

/-! ## Lemmas about the content search ranker -/

theorem mapExcept_ok_length {α β : Type} (f : α → Except Unit β) :
    ∀ (l : List α) (res : List β), mapExcept f l = .ok res → res.length = l.length := by
  intro l
  induction l with
  | nil =>
      intro res h
      simp only [mapExcept] at h
      cases h
      rfl
  | cons x xs ih =>
      intro res h
      simp only [mapExcept] at h
      cases hf : f x with
      | error e => rw [hf] at h; cases h
      | ok y =>
          rw [hf] at h
          cases hm : mapExcept f xs with
          | error e => rw [hm] at h; cases h
          | ok ys =>
              rw [hm] at h
              cases h
              simp [ih ys hm]

theorem foldl_bestStep_fst_bound (L : Nat) :
    ∀ (l : List (Nat × Nat)) (st : Nat × Nat), 1 ≤ st.1 → st.1 ≤ L →
      (∀ p ∈ l, p.1 + 1 ≤ L) →
      1 ≤ (l.foldl bestStep st).1 ∧ (l.foldl bestStep st).1 ≤ L := by
  intro l
  induction l with
  | nil => intro st h1 h2 _; exact ⟨h1, h2⟩
  | cons p rest ih =>
      intro st h1 h2 hmem
      have hp := hmem p (by simp)
      have hrest : ∀ q ∈ rest, q.1 + 1 ≤ L := fun q hq => hmem q (by simp [hq])
      simp only [List.foldl_cons, bestStep]
      by_cases hc : p.2 > st.2
      · rw [if_pos hc]
        exact ih (p.1 + 1, p.2) (by omega) (by omega) hrest
      · rw [if_neg hc]
        exact ih st h1 h2 hrest

theorem mem_enumFrom_fst_lt {α : Type} :
    ∀ (l : List α) (n : Nat) (p : Nat × α), p ∈ l.enumFrom n → p.1 < n + l.length := by
  intro l
  induction l with
  | nil => intro n p h; simp [List.enumFrom] at h
  | cons x xs ih =>
      intro n p h
      simp only [List.enumFrom, List.mem_cons] at h
      rcases h with h | h
      · subst h; simp
      · have := ih (n + 1) p h
        simp only [List.length_cons]
        omega

theorem bestLineFold_bounds (scores : List Nat) :
    1 ≤ bestLineFold scores ∧ bestLineFold scores ≤ max 1 scores.length := by
  have hmem : ∀ p ∈ scores.enum, p.1 + 1 ≤ max 1 scores.length := by
    intro p hp
    have := mem_enumFrom_fst_lt scores 0 p (by simpa [List.enum] using hp)
    omega
  have hfold := foldl_bestStep_fst_bound (max 1 scores.length) scores.enum
    (1, (0 : Nat)) (by norm_num) (by simp) hmem
  unfold bestLineFold
  by_cases hc : (scores.enum.foldl bestStep (1, (0 : Nat))).2 > 0
  · simpa [hc] using hfold
  · simp [hc]

theorem splitOn_length_pos (c : Char) (s : List Char) :
    1 ≤ (jsSplit c s).length := by
  have : jsSplit c s ≠ [] := by
    unfold jsSplit List.splitOn
    exact List.splitOnP_ne_nil _ s
  cases h : jsSplit c s with
  | nil => exact absurd h this
  | cons a l => simp

/-- C9: on a read failure the ranker returns line 1 for every clue list. -/
theorem searchRanker_read_error_returns_line_one :
    ∀ searchTerms : List (List Char), findBestLineInFile none searchTerms = 1 :=
  fun _ => rfl

/-- C10: for every readable file and every clue list the ranker returns a
line number between 1 and the number of lines of the file, and it returns
exactly 1 on a read error. -/
theorem searchRanker_line_in_range :
    ∀ (content : List Char) (searchTerms : List (List Char)),
      (1 ≤ findBestLineInFile (some content) searchTerms ∧
        findBestLineInFile (some content) searchTerms ≤ (jsSplit '\n' content).length) ∧
      findBestLineInFile none searchTerms = 1 := by
  intro content searchTerms
  refine ⟨?_, rfl⟩
  have hpos := splitOn_length_pos '\n' content
  simp only [findBestLineInFile]
  split
  · exact ⟨le_refl 1, hpos⟩
  · next scores hm =>
      have hlen := mapExcept_ok_length _ _ _ hm
      have hb := bestLineFold_bounds scores
      refine ⟨hb.1, ?_⟩
      have h2 := hb.2
      rw [hlen] at h2
      omega

/-- C2: the scoring the claim (and the spec) describes is violated by the
code.  The clue-escaping step escapes nothing in `(click)` (its regex only
matches a special character followed by the two characters `\]`), so the
word-boundary bonus is computed from `\b(click)\b` — a *group* around
`click` — and fires on the line `(click)` where a whole-word match of the
literal clue `(click)` does not exist.  On the two-line file
`(click)\na(click)b` with the single clue `(click)` the code therefore
returns line 1 while the claimed scoring selects line 2. -/
theorem searchRanker_scoring_diverges_on_special_clue :
    findBestLineInFile (some "(click)\na(click)b".toList) ["(click)".toList] = 1 ∧
    specFindBestLine "(click)\na(click)b".toList ["(click)".toList] = 2 := by
  constructor <;> decide

/-- C7: the clue `[` is not escaped (the mangled escaping regex leaves it
untouched), so `new RegExp('\\b[\\b')` throws a `SyntaxError`
(unterminated character class); the scoring pass aborts and the ranker
falls back to line 1 instead of completing — the claimed ranking would
return line 2. -/
theorem searchRanker_aborts_on_unescaped_special_clue :
    mapExcept (lineScore (weightedClues ["[".toList])) (jsSplit '\n' ("a\nb [ c".toList)) =
      .error () ∧
    findBestLineInFile (some ("a\nb [ c".toList)) ["[".toList] = 1 ∧
    specFindBestLine ("a\nb [ c".toList) ["[".toList] = 2 := by
  refine ⟨?_, ?_, ?_⟩ <;> decide

/-- C8: the cache is overwritten only after the index file has been
successfully written — on a failed index write the previous cache content
is untouched; on success the cache holds the current candidate
timestamps and the index holds the new content; and any cache change at
all implies the new index was written first. -/
theorem cacheCommit_only_after_index_write :
    ∀ (writeOk : Bool)
      (content : List (List Char × CmpInfo) × List (List Char × List (List Char)))
      (currentStats : List (List Char × Nat)) (st : ScanStore),
      ((commitPhase writeOk content currentStats st).2 = false →
        (commitPhase writeOk content currentStats st).1.cacheFile = st.cacheFile ∧
        (commitPhase writeOk content currentStats st).1 = st) ∧
      ((commitPhase writeOk content currentStats st).2 = true →
        (commitPhase writeOk content currentStats st).1.cacheFile = currentStats ∧
        (commitPhase writeOk content currentStats st).1.indexFile = some content) ∧
      ((commitPhase writeOk content currentStats st).1.cacheFile ≠ st.cacheFile →
        (commitPhase writeOk content currentStats st).1.indexFile = some content) := by
  intro writeOk content currentStats st
  cases writeOk <;>
    simp [commitPhase, writeIndexOp, saveCacheOp]

/-- Witness for C8: a failed index write leaves a concrete cache file
unchanged. -/
theorem cacheCommit_only_after_index_write_witness :
    (commitPhase false ([], []) [] ⟨none, [("a".toList, 1)]⟩).1.cacheFile =
      [("a".toList, 1)] := by
  exact ((cacheCommit_only_after_index_write false ([], []) []
    ⟨none, [("a".toList, 1)]⟩).1 (by decide)).1

/-- C6: the dispatcher's launch chain in strict priority order.  (1) A
configured environment override whose spawn succeeds is the only spawn
and reports success.  (2) With no override, a preferred editor whose
launch succeeds is the only spawn and reports success.  (3) With no
override, when the preferred editor's launch throws and a fallback
editor is configured, the fallback is attempted exactly once and its
outcome is reported — in particular, when it also fails, failure is
reported with no further spawns. -/
theorem launchInEditor_priority_chain :
    ∀ (env : EditorEnv) (file preferred fallbackEditor : List Char),
      (∀ ec, env.editorCmd = some ec →
        env.spawnOk ((jsSplit ' ' ec).headD []) ((jsSplit ' ' ec).tail ++ [file]) = true →
        launchInEditor env file preferred fallbackEditor =
          (true, [⟨(jsSplit ' ' ec).headD [], (jsSplit ' ' ec).tail ++ [file]⟩])) ∧
      (env.editorCmd = none →
        ∀ c1 a1, commandTemplate env.cliPresent preferred file = some (c1, a1) →
        env.spawnOk c1 a1 = true →
        launchInEditor env file preferred fallbackEditor = (true, [⟨c1, a1⟩])) ∧
      (env.editorCmd = none →
        ∀ c1 a1, commandTemplate env.cliPresent preferred file = some (c1, a1) →
        env.spawnOk c1 a1 = false →
        fallbackEditor.isEmpty = false →
        ∀ c2 a2, commandTemplate env.cliPresent fallbackEditor file = some (c2, a2) →
        launchInEditor env file preferred fallbackEditor =
          (env.spawnOk c2 a2, [⟨c1, a1⟩, ⟨c2, a2⟩])) := by
  intro env file preferred fallbackEditor
  refine ⟨?_, ?_, ?_⟩
  · intro ec hec hok
    simp only [List.headD_eq_head?] at hok
    simp [launchInEditor, hec, hok]
  · intro hnone c1 a1 h1 hok
    simp [launchInEditor, hnone, tryRunEditor, h1, hok]
  · intro hnone c1 a1 h1 hfail hfb c2 a2 h2
    simp [launchInEditor, hnone, tryRunEditor, h1, h2, hfail, hfb]

/-- Witness for C6: with no override, a preferred `cursor` whose CLI is
present but whose spawn throws, and fallback `code`, the fallback is
attempted exactly once and the chain reports its failure. -/
theorem launchInEditor_priority_chain_witness :
    launchInEditor ⟨none, fun _ => true, fun _ _ => false⟩ "f.ts:3:1".toList
        "cursor".toList "code".toList =
      (false, [⟨"cursor".toList, ["--goto".toList, "f.ts:3:1".toList]⟩,
               ⟨"code".toList, ["--goto".toList, "f.ts:3:1".toList]⟩]) := by
  exact (launchInEditor_priority_chain ⟨none, fun _ => true, fun _ _ => false⟩
      "f.ts:3:1".toList "cursor".toList "code".toList).2.2 rfl
    "cursor".toList ["--goto".toList, "f.ts:3:1".toList] (by decide) rfl (by decide)
    "code".toList ["--goto".toList, "f.ts:3:1".toList] (by decide)

/-- Pointwise meaning of the JavaScript truthiness test on a timestamp
lookup. -/
theorem jsTruthyNum_eq_true_iff (o : Option Nat) :
    jsTruthyNum o = true ↔ o ≠ none ∧ o ≠ some 0 := by
  cases o with
  | none => simp [jsTruthyNum]
  | some t =>
      simp only [jsTruthyNum, bne_iff_ne, ne_eq]
      constructor
      · intro h
        exact ⟨by simp, by simpa using h⟩
      · intro h
        simpa using h.2

/-- The code's freshness decision, spelled out: every candidate's cached
timestamp is truthy and (strictly) equal to its current one, the sizes
match, every cached path has a truthy current timestamp, and the index
file exists. -/
theorem scanSkips_true_iff (stats previousCache : List (List Char × Nat))
    (filePaths : List (List Char)) (idx : Bool) :
    scanSkips stats previousCache filePaths idx = true ↔
      (∀ p ∈ filePaths, jsTruthyNum (assocLookup previousCache p) = true ∧
          assocLookup previousCache p = assocLookup stats p) ∧
      filePaths.length = previousCache.length ∧
      (∀ q ∈ previousCache.map Prod.fst, jsTruthyNum (assocLookup stats q) = true) ∧
      idx = true := by
  simp only [scanSkips]
  constructor
  · intro h
    rw [Bool.and_eq_true, Bool.and_eq_true, Bool.not_eq_true', Bool.not_eq_true'] at h
    obtain ⟨⟨h1, h2⟩, hidx⟩ := h
    rw [List.any_eq_false] at h1
    rw [Bool.or_eq_false_iff, Bool.or_eq_false_iff, bne_eq_false_iff_eq,
      List.any_eq_false, List.any_eq_false] at h2
    obtain ⟨⟨hlen, _⟩, hc⟩ := h2
    refine ⟨?_, ?_, ?_, hidx⟩
    · intro p hp
      have hx := h1 p hp
      cases ht : jsTruthyNum (assocLookup previousCache p) with
      | false => exact absurd (by simp [ht]) hx
      | true =>
          refine ⟨rfl, ?_⟩
          by_contra hne
          exact hx (by simp [ht, bne_iff_ne, hne])
    · simpa [List.length_map] using hlen
    · intro q hq
      have hx := hc q hq
      cases ht : jsTruthyNum (assocLookup stats q) with
      | false => exact absurd (by simp [ht]) hx
      | true => rfl
  · rintro ⟨ha, hlen, hc, hidx⟩
    rw [Bool.and_eq_true, Bool.and_eq_true, Bool.not_eq_true', Bool.not_eq_true']
    refine ⟨⟨?_, ?_⟩, hidx⟩
    · rw [List.any_eq_false]
      intro p hp
      rw [← (ha p hp).2]
      simp [(ha p hp).1]
    · rw [Bool.or_eq_false_iff, Bool.or_eq_false_iff]
      refine ⟨⟨?_, ?_⟩, ?_⟩
      · rw [bne_eq_false_iff_eq]
        simpa [List.length_map] using hlen
      · rw [List.any_eq_false]
        intro p hp
        simp [(ha p hp).1]
      · rw [List.any_eq_false]
        intro q hq
        simp [hc q hq]

/-- C3 counterexample: a candidate file whose live and cached timestamp
are both 0 satisfies the claim's clean condition (identical membership,
equal timestamps, index present), yet the code rebuilds, because
`!previousCache[p]` treats the timestamp `0` as absent (JavaScript
falsiness). -/
theorem scanSkip_zero_timestamp_counterexample :
    specCacheClean [("a".toList, 0)] [("a".toList, 0)] ["a".toList] true ∧
    scanSkips [("a".toList, 0)] [("a".toList, 0)] ["a".toList] true = false := by
  constructor <;> decide

/-- C3 amended: the scan short-circuits (rebuilding and writing nothing,
so the persisted store — in particular the index bytes — is left
untouched) exactly when the claim's clean condition holds *and* every
timestamp involved is nonzero. -/
theorem scanSkip_iff_clean_nonzero :
    ∀ (stats previousCache : List (List Char × Nat)) (filePaths : List (List Char))
      (indexFileExists : Bool),
      (scanSkips stats previousCache filePaths indexFileExists = true ↔
        specCacheClean stats previousCache filePaths indexFileExists ∧
        (∀ p ∈ filePaths, assocLookup stats p ≠ some 0) ∧
        (∀ q ∈ previousCache.map Prod.fst, assocLookup stats q ≠ some 0)) ∧
      (∀ (fsTimes : List (List Char × Nat)) (files : List ScannedFile) (st : ScanStore),
        scanSkips (getFileStats fsTimes (files.map (fun f => f.filePath))) st.cacheFile
            (files.map (fun f => f.filePath)) st.indexFile.isSome = true →
        scanMain fsTimes files st = st) := by
  intro stats previousCache filePaths indexFileExists
  constructor
  · rw [scanSkips_true_iff]
    unfold specCacheClean
    constructor
    · rintro ⟨hchg, hlen, hstat, hidx⟩
      refine ⟨⟨hidx, hlen, ?_, ?_⟩, ?_, ?_⟩
      · intro p hp
        have h1 := (jsTruthyNum_eq_true_iff _).1 (hchg p hp).1
        exact ⟨h1.1, (hchg p hp).2⟩
      · intro q hq
        exact ((jsTruthyNum_eq_true_iff _).1 (hstat q hq)).1
      · intro p hp
        have h1 := (jsTruthyNum_eq_true_iff _).1 (hchg p hp).1
        rw [← (hchg p hp).2]
        exact h1.2
      · intro q hq
        exact ((jsTruthyNum_eq_true_iff _).1 (hstat q hq)).2
    · rintro ⟨⟨hidx, hlen, heq, hpres⟩, hnz, hnzc⟩
      have hprevT : ∀ p ∈ filePaths, jsTruthyNum (assocLookup previousCache p) = true := by
        intro p hp
        refine (jsTruthyNum_eq_true_iff _).2 ⟨(heq p hp).1, ?_⟩
        rw [(heq p hp).2]
        exact hnz p hp
      refine ⟨?_, hlen, ?_, hidx⟩
      · intro p hp
        exact ⟨hprevT p hp, (heq p hp).2⟩
      · intro q hq
        exact (jsTruthyNum_eq_true_iff _).2 ⟨hpres q hq, hnzc q hq⟩
  · intro fsTimes files st hskip
    unfold scanMain
    simp only [hskip, if_true]

/-- Witness for C3's amended theorem: an unchanged one-file set with a
nonzero timestamp and a present index makes a second run leave the
persisted store untouched. -/
theorem scanSkip_iff_clean_nonzero_witness :
    scanMain [("a".toList, 5)] [⟨"a".toList, []⟩]
        ⟨some ([], []), [("a".toList, 5)]⟩ =
      ⟨some ([], []), [("a".toList, 5)]⟩ := by
  exact (scanSkip_iff_clean_nonzero [("a".toList, 5)] [("a".toList, 5)] ["a".toList] true).2
    [("a".toList, 5)] [⟨"a".toList, []⟩] ⟨some ([], []), [("a".toList, 5)]⟩ (by decide)

/-! ## Lemmas about the identity resolver's relevance selection -/

/-- Invariant of `selectLoop` when the running best score is the score of
the running best match: the result's score dominates the current best and
every remaining candidate, and the result is either the current best or a
later candidate that strictly beats the current best and everything
before it. -/
theorem selectLoop_spec (url : List Char) :
    ∀ (l : List (List Char)) (best : List Char),
      calculatePathRelevance best url ≤
        calculatePathRelevance
          (selectLoop url l best (calculatePathRelevance best url)) url ∧
      (∀ x ∈ l, calculatePathRelevance x url ≤
        calculatePathRelevance
          (selectLoop url l best (calculatePathRelevance best url)) url) ∧
      (selectLoop url l best (calculatePathRelevance best url) = best ∨
        ∃ i, ∃ h : i < l.length,
          l.get ⟨i, h⟩ = selectLoop url l best (calculatePathRelevance best url) ∧
          calculatePathRelevance best url <
            calculatePathRelevance
              (selectLoop url l best (calculatePathRelevance best url)) url ∧
          ∀ j, ∀ hj : j < l.length, j < i →
            calculatePathRelevance (l.get ⟨j, hj⟩) url <
              calculatePathRelevance
                (selectLoop url l best (calculatePathRelevance best url)) url) := by
  intro l
  induction l with
  | nil =>
      intro best
      exact ⟨le_refl _, by simp, Or.inl rfl⟩
  | cons f rest ih =>
      intro best
      by_cases hgt : calculatePathRelevance best url < calculatePathRelevance f url
      · have hcond : ((calculatePathRelevance f url : Int) >
            (calculatePathRelevance best url : Int)) = True := by
          simp [Int.ofNat_lt.mpr hgt]
        have hstep : selectLoop url (f :: rest) best (calculatePathRelevance best url) =
            selectLoop url rest f (calculatePathRelevance f url) := by
          simp only [selectLoop]
          rw [if_pos (by exact_mod_cast hgt)]
        rw [hstep]
        obtain ⟨ih1, ih2, ih3⟩ := ih f
        refine ⟨by omega, ?_, ?_⟩
        · intro x hx
          rcases List.mem_cons.1 hx with hx | hx
          · rw [hx]; exact ih1
          · exact ih2 x hx
        · rcases ih3 with h | ⟨i, hilt, hget, hlt, hpre⟩
          · refine Or.inr ⟨0, by simp, ?_, ?_, ?_⟩
            · simpa using h.symm
            · rw [h]; omega
            · intro j hj hj0; omega
          · refine Or.inr ⟨i + 1, by simpa using Nat.succ_lt_succ hilt, ?_, by omega, ?_⟩
            · simpa using hget
            · intro j hj hji
              cases j with
              | zero => simpa using hlt
              | succ j2 =>
                  have hj2 : j2 < rest.length := by simpa using hj
                  have := hpre j2 hj2 (by omega)
                  simpa using this
      · have hstep : selectLoop url (f :: rest) best (calculatePathRelevance best url) =
            selectLoop url rest best (calculatePathRelevance best url) := by
          simp only [selectLoop]
          rw [if_neg (by exact_mod_cast hgt)]
        rw [hstep]
        obtain ⟨ih1, ih2, ih3⟩ := ih best
        refine ⟨ih1, ?_, ?_⟩
        · intro x hx
          rcases List.mem_cons.1 hx with hx | hx
          · rw [hx]; omega
          · exact ih2 x hx
        · rcases ih3 with h | ⟨i, hilt, hget, hlt, hpre⟩
          · exact Or.inl h
          · refine Or.inr ⟨i + 1, by simpa using Nat.succ_lt_succ hilt, ?_, hlt, ?_⟩
            · simpa using hget
            · intro j hj hji
              cases j with
              | zero => simpa using (by omega : calculatePathRelevance f url <
                  calculatePathRelevance (selectLoop url rest best
                    (calculatePathRelevance best url)) url)
              | succ j2 =>
                  have hj2 : j2 < rest.length := by simpa using hj
                  have := hpre j2 hj2 (by omega)
                  simpa using this

/-- C1: among two or more candidate file paths, `selectBestMatchingFile`
returns the candidate at the least index attaining the maximal relevance
score against the navigation path: its score dominates every candidate's,
and every earlier candidate scores strictly lower.  The function is pure,
so repeated calls agree. -/
theorem resolver_selects_first_highest_relevance :
    ∀ (candidates : List (List Char)) (currentUrl : List Char),
      2 ≤ candidates.length →
      ∃ i, ∃ h : i < candidates.length,
        candidates.get ⟨i, h⟩ = selectBestMatchingFile candidates currentUrl ∧
        (∀ j, ∀ hj : j < candidates.length,
          calculatePathRelevance (candidates.get ⟨j, hj⟩) currentUrl ≤
            calculatePathRelevance (candidates.get ⟨i, h⟩) currentUrl) ∧
        (∀ j, ∀ hj : j < candidates.length, j < i →
          calculatePathRelevance (candidates.get ⟨j, hj⟩) currentUrl <
            calculatePathRelevance (candidates.get ⟨i, h⟩) currentUrl) := by
  intro candidates currentUrl hlen
  match candidates, hlen with
  | c1 :: c2 :: rest, _ =>
      have hsel : selectBestMatchingFile (c1 :: c2 :: rest) currentUrl =
          selectLoop currentUrl (c2 :: rest) c1 (calculatePathRelevance c1 currentUrl) := by
        simp only [selectBestMatchingFile, selectLoop]
        rw [if_pos]
        exact lt_of_lt_of_le (by norm_num) (Int.ofNat_nonneg _)
      obtain ⟨ih1, ih2, ih3⟩ := selectLoop_spec currentUrl (c2 :: rest) c1
      rcases ih3 with h | ⟨i, hilt, hget, hlt, hpre⟩
      · refine ⟨0, by simp, ?_, ?_, ?_⟩
        · rw [hsel, h]; rfl
        · intro j hj
          cases j with
          | zero => exact le_refl _
          | succ j2 =>
              have hj2 : j2 < (c2 :: rest).length := by simpa using hj
              have := ih2 _ (List.get_mem (c2 :: rest) j2 hj2)
              rw [h] at this
              simpa using this
        · intro j hj hj0; omega
      · refine ⟨i + 1, by simpa using Nat.succ_lt_succ hilt, ?_, ?_, ?_⟩
        · rw [hsel]; simpa using hget
        · intro j hj
          have hget2 : (c1 :: c2 :: rest).get
              ⟨i + 1, by simpa using Nat.succ_lt_succ hilt⟩ =
              selectLoop currentUrl (c2 :: rest) c1
                (calculatePathRelevance c1 currentUrl) := by
            simpa using hget
          rw [hget2]
          cases j with
          | zero => simpa using le_of_lt hlt
          | succ j2 =>
              have hj2 : j2 < (c2 :: rest).length := by simpa using hj
              have := ih2 _ (List.get_mem (c2 :: rest) j2 hj2)
              simpa using this
        · intro j hj hji
          have hget2 : (c1 :: c2 :: rest).get
              ⟨i + 1, by simpa using Nat.succ_lt_succ hilt⟩ =
              selectLoop currentUrl (c2 :: rest) c1
                (calculatePathRelevance c1 currentUrl) := by
            simpa using hget
          rw [hget2]
          cases j with
          | zero => simpa using hlt
          | succ j2 =>
              have hj2 : j2 < (c2 :: rest).length := by simpa using hj
              have := hpre j2 hj2 (by omega)
              simpa using this

/-- Witness for C1: the specification's own example — candidates
`a/widgets/foo.ts` and `b/dashboard/foo.ts` against navigation path
`/dashboard/settings` — has a first-maximal candidate, namely the
selected one. -/
theorem resolver_selects_first_highest_relevance_witness :
    ∃ i, ∃ h : i < (["a/widgets/foo.ts".toList, "b/dashboard/foo.ts".toList] :
        List (List Char)).length,
      (["a/widgets/foo.ts".toList, "b/dashboard/foo.ts".toList] :
          List (List Char)).get ⟨i, h⟩ =
        selectBestMatchingFile ["a/widgets/foo.ts".toList, "b/dashboard/foo.ts".toList]
          "/dashboard/settings".toList ∧
      (∀ j, ∀ hj : j < (["a/widgets/foo.ts".toList, "b/dashboard/foo.ts".toList] :
          List (List Char)).length,
        calculatePathRelevance ((["a/widgets/foo.ts".toList,
            "b/dashboard/foo.ts".toList] : List (List Char)).get ⟨j, hj⟩)
            "/dashboard/settings".toList ≤
          calculatePathRelevance ((["a/widgets/foo.ts".toList,
            "b/dashboard/foo.ts".toList] : List (List Char)).get ⟨i, h⟩)
            "/dashboard/settings".toList) ∧
      (∀ j, ∀ hj : j < (["a/widgets/foo.ts".toList, "b/dashboard/foo.ts".toList] :
          List (List Char)).length, j < i →
        calculatePathRelevance ((["a/widgets/foo.ts".toList,
            "b/dashboard/foo.ts".toList] : List (List Char)).get ⟨j, hj⟩)
            "/dashboard/settings".toList <
          calculatePathRelevance ((["a/widgets/foo.ts".toList,
            "b/dashboard/foo.ts".toList] : List (List Char)).get ⟨i, h⟩)
            "/dashboard/settings".toList) := by
  exact resolver_selects_first_highest_relevance
    ["a/widgets/foo.ts".toList, "b/dashboard/foo.ts".toList]
    "/dashboard/settings".toList (by decide)

/-! ## Lemmas about the identifier fallback of the resolver -/

theorem selectLoop_mem (url : List Char) :
    ∀ (l : List (List Char)) (best : List Char) (bs : Int),
      selectLoop url l best bs = best ∨ selectLoop url l best bs ∈ l := by
  intro l
  induction l with
  | nil => intro best bs; exact Or.inl rfl
  | cons f rest ih =>
      intro best bs
      simp only [selectLoop]
      by_cases h : ((calculatePathRelevance f url : Int) > bs)
      · rw [if_pos h]
        rcases ih f (calculatePathRelevance f url) with h2 | h2
        · exact Or.inr (by rw [h2]; simp)
        · exact Or.inr (by simp [h2])
      · rw [if_neg h]
        rcases ih best bs with h2 | h2
        · exact Or.inl h2
        · exact Or.inr (by simp [h2])

/-- The selected best match is always one of the candidates. -/
theorem selectBest_mem (cs : List (List Char)) (url : List Char) (h : cs ≠ []) :
    selectBestMatchingFile cs url ∈ cs := by
  match cs, h with
  | [c], _ => simp [selectBestMatchingFile]
  | c1 :: c2 :: rest, _ =>
      have he : selectBestMatchingFile (c1 :: c2 :: rest) url =
          selectLoop url (c1 :: c2 :: rest) c1 (-1) := rfl
      rw [he]
      rcases selectLoop_mem url (c1 :: c2 :: rest) c1 (-1) with h2 | h2
      · rw [h2]; simp
      · exact h2

/-- The claim's "identifier yields no candidate file paths": the key is
absent from `filePathsByClassName` or bound to an empty array. -/
def noCandidates (m : CmpMap) (cls : List Char) : Prop :=
  assocLookup m.filePathsByClassName cls = none ∨
  assocLookup m.filePathsByClassName cls = some []

theorem resolveLoop_cons_empty (m : CmpMap) (url cand : List Char)
    (rest : List (List Char)) (h : noCandidates m cand) :
    resolveLoop m url (cand :: rest) = resolveLoop m url rest := by
  rcases h with h | h <;> simp [resolveLoop, h]

theorem resolveLoop_cons_hit (m : CmpMap) (url cand : List Char)
    (rest : List (List Char)) (cs : List (List Char))
    (hcs : assocLookup m.filePathsByClassName cand = some cs) (hne : cs ≠ [])
    (info : CmpInfo)
    (hinfo : assocLookup m.detailByFilePath (selectBestMatchingFile cs url) = some info) :
    resolveLoop m url (cand :: rest) = some info := by
  match cs, hne with
  | c :: cs2, _ =>
      simp only [resolveLoop, hcs]
      rw [hinfo]

/-- C4: identifier resolution tries the exact identifier first and falls
back to the identifier with its leading underscores stripped, never
merging the two candidate lists, under the index's referential integrity
(every path listed under a class name has a detail record — which
`cmp-scan.ts` and `normalizeMap` both guarantee by construction).
(1) An exact identifier with candidates resolves to the record of the
best-matching candidate of the *exact* list; (2) when the exact
identifier has no candidates and the stripped one has some, it resolves
through the stripped list; (3) when neither has candidates the resolver
returns absent. -/
theorem resolver_identifier_fallback :
    ∀ (m : CmpMap) (currentUrl className : List Char),
      (∀ cls paths, assocLookup m.filePathsByClassName cls = some paths →
        ∀ p ∈ paths, ∃ info, assocLookup m.detailByFilePath p = some info) →
      className ≠ [] →
      ((∀ cs, assocLookup m.filePathsByClassName className = some cs → cs ≠ [] →
        getComponentInfoByClassName m currentUrl className =
          assocLookup m.detailByFilePath (selectBestMatchingFile cs currentUrl)) ∧
       (noCandidates m className →
        className.dropWhile (fun c => c = '_') ≠ [] →
        ∀ cs, assocLookup m.filePathsByClassName
            (className.dropWhile (fun c => c = '_')) = some cs → cs ≠ [] →
        getComponentInfoByClassName m currentUrl className =
          assocLookup m.detailByFilePath (selectBestMatchingFile cs currentUrl)) ∧
       (noCandidates m className →
        noCandidates m (className.dropWhile (fun c => c = '_')) →
        getComponentInfoByClassName m currentUrl className = none)) := by
  intro m currentUrl className hint hne
  have hie : className.isEmpty = false := by
    cases className with
    | nil => exact absurd rfl hne
    | cons a l => rfl
  refine ⟨?_, ?_, ?_⟩
  · intro cs hcs hcsne
    obtain ⟨info, hinfo⟩ :=
      hint className cs hcs _ (selectBest_mem cs currentUrl hcsne)
    have hshape : ∃ t, getClassNameCandidates className = className :: t := by
      unfold getClassNameCandidates
      simp only [hie, Bool.false_eq_true, if_false, List.contains_nil, List.nil_append]
      split
      · exact ⟨[], rfl⟩
      · split
        · exact ⟨[], rfl⟩
        · exact ⟨[className.dropWhile (fun c => c = '_')], rfl⟩
    obtain ⟨t, ht⟩ := hshape
    unfold getComponentInfoByClassName
    rw [ht, resolveLoop_cons_hit m currentUrl className t cs hcs hcsne info hinfo, hinfo]
  · intro hempty hsne cs hcs hcsne
    by_cases heq : className.dropWhile (fun c => c = '_') = className
    · rw [heq] at hcs
      rcases hempty with h | h <;> rw [h] at hcs
      · cases hcs
      · cases hcs
        exact absurd rfl hcsne
    · have hsie : (className.dropWhile (fun c => c = '_')).isEmpty = false := by
        cases hd : className.dropWhile (fun c => c = '_') with
        | nil => exact absurd hd hsne
        | cons a l => rfl
      have ht : getClassNameCandidates className =
          [className, className.dropWhile (fun c => c = '_')] := by
        unfold getClassNameCandidates
        simp [hie, hsie, heq]
      unfold getComponentInfoByClassName
      rw [ht, resolveLoop_cons_empty m currentUrl className _ hempty]
      obtain ⟨info, hinfo⟩ :=
        hint _ cs hcs _ (selectBest_mem cs currentUrl hcsne)
      rw [resolveLoop_cons_hit m currentUrl _ [] cs hcs hcsne info hinfo, hinfo]
  · intro hempty hempty2
    have hshape : getClassNameCandidates className = [className] ∨
        getClassNameCandidates className =
          [className, className.dropWhile (fun c => c = '_')] := by
      unfold getClassNameCandidates
      simp only [hie, Bool.false_eq_true, if_false, List.contains_nil, List.nil_append]
      split
      · exact Or.inl rfl
      · split
        · exact Or.inl rfl
        · exact Or.inr rfl
    unfold getComponentInfoByClassName
    rcases hshape with ht | ht <;> rw [ht]
    · rw [resolveLoop_cons_empty m currentUrl className _ hempty]
      rfl
    · rw [resolveLoop_cons_empty m currentUrl className _ hempty,
        resolveLoop_cons_empty m currentUrl _ _ hempty2]
      rfl

/-- Witness for C4: the spec's own example — identifier `_Foo` with no
direct entry but `Foo` present in the index resolves to `Foo`'s record
via the stripped name. -/
theorem resolver_identifier_fallback_witness :
    getComponentInfoByClassName
      ⟨[("/a/foo.ts".toList, ⟨"Foo".toList, "/a/foo.ts".toList, none⟩)],
       [("Foo".toList, ["/a/foo.ts".toList])]⟩
      "/".toList "_Foo".toList =
    some ⟨"Foo".toList, "/a/foo.ts".toList, none⟩ := by
  have hint : ∀ cls paths,
      assocLookup (CmpMap.mk
        [("/a/foo.ts".toList, ⟨"Foo".toList, "/a/foo.ts".toList, none⟩)]
        [("Foo".toList, ["/a/foo.ts".toList])]).filePathsByClassName cls = some paths →
      ∀ p ∈ paths, ∃ info,
        assocLookup (CmpMap.mk
          [("/a/foo.ts".toList, ⟨"Foo".toList, "/a/foo.ts".toList, none⟩)]
          [("Foo".toList, ["/a/foo.ts".toList])]).detailByFilePath p = some info := by
    intro cls paths h p hp
    simp only [assocLookup, List.lookup] at h
    by_cases hc : (cls == "Foo".toList)
    · rw [hc] at h
      cases h
      have hp2 : p = "/a/foo.ts".toList := by simpa using hp
      exact ⟨⟨"Foo".toList, "/a/foo.ts".toList, none⟩, by rw [hp2]; rfl⟩
    · rw [Bool.not_eq_true] at hc
      rw [hc] at h
      cases h
  have h2 := (resolver_identifier_fallback
      ⟨[("/a/foo.ts".toList, ⟨"Foo".toList, "/a/foo.ts".toList, none⟩)],
       [("Foo".toList, ["/a/foo.ts".toList])]⟩
      "/".toList "_Foo".toList hint (by decide)).2.1
    (Or.inl (by decide)) (by decide) ["/a/foo.ts".toList] (by decide) (by decide)
  rw [h2]
  decide

/-! ## Lemmas about the index builder -/

theorem assocLookup_cons {α : Type} (k1 : List Char) (v1 : α)
    (rest : List (List Char × α)) (k : List Char) :
    assocLookup ((k1, v1) :: rest) k =
      if k = k1 then some v1 else assocLookup rest k := by
  simp only [assocLookup, List.lookup_cons]
  by_cases h : k = k1
  · rw [if_pos h, show (k == k1) = true from beq_iff_eq.2 h]
  · rw [if_neg h, show (k == k1) = false from beq_eq_false_iff_ne.2 h]

theorem jsObjSet_lookup {α : Type} (m : List (List Char × α)) (k k2 : List Char) (v : α) :
    assocLookup (jsObjSet m k v) k2 = if k2 = k then some v else assocLookup m k2 := by
  induction m with
  | nil =>
      simp only [jsObjSet]
      rw [assocLookup_cons]
  | cons e rest ih =>
      obtain ⟨k1, v1⟩ := e
      by_cases h1 : k1 = k
      · simp only [jsObjSet, if_pos h1]
        rw [assocLookup_cons, assocLookup_cons]
        by_cases h2 : k2 = k
        · rw [if_pos h2, if_pos h2]
        · rw [if_neg h2, if_neg h2, if_neg (fun hh => h2 (hh.trans h1))]
      · simp only [jsObjSet, if_neg h1]
        rw [assocLookup_cons, assocLookup_cons, ih]
        by_cases h2 : k2 = k1
        · have hk : ¬ k2 = k := fun hh => h1 (h2.symm.trans hh)
          rw [if_pos h2, if_neg hk, if_pos h2]
        · rw [if_neg h2, if_neg h2]

theorem jsObjSet_fst_mem {α : Type} (m : List (List Char × α)) (k : List Char) (v : α)
    (a : List Char) :
    a ∈ (jsObjSet m k v).map Prod.fst ↔ a ∈ m.map Prod.fst ∨ a = k := by
  induction m with
  | nil =>
      simp only [jsObjSet, List.map_cons, List.map_nil, List.mem_singleton,
        List.not_mem_nil, false_or]
  | cons e rest ih =>
      obtain ⟨k1, v1⟩ := e
      by_cases h1 : k1 = k
      · simp only [jsObjSet, if_pos h1, List.map_cons, List.mem_cons]
        rw [h1]
        tauto
      · simp only [jsObjSet, if_neg h1, List.map_cons, List.mem_cons, ih]
        tauto

theorem jsObjSet_fst_nodup {α : Type} (m : List (List Char × α)) (k : List Char) (v : α)
    (h : (m.map Prod.fst).Nodup) : ((jsObjSet m k v).map Prod.fst).Nodup := by
  induction m with
  | nil =>
      simp [jsObjSet]
  | cons e rest ih =>
      obtain ⟨k1, v1⟩ := e
      simp only [List.map_cons, List.nodup_cons] at h
      by_cases h1 : k1 = k
      · simp only [jsObjSet, if_pos h1, List.map_cons]
        rw [← h1]
        exact List.nodup_cons.2 h
      · simp only [jsObjSet, if_neg h1, List.map_cons]
        refine List.nodup_cons.2 ⟨?_, ih h.2⟩
        rw [jsObjSet_fst_mem]
        rintro (hm | hm)
        · exact h.1 hm
        · exact h1 hm

theorem jsObjSet_mem {α : Type} {m : List (List Char × α)} {k : List Char} {v : α}
    {x : List Char × α} (hx : x ∈ jsObjSet m k v) : x = (k, v) ∨ x ∈ m := by
  induction m with
  | nil =>
      simp only [jsObjSet] at hx
      exact Or.inl (List.mem_singleton.1 hx)
  | cons e rest ih =>
      obtain ⟨k1, v1⟩ := e
      by_cases h1 : k1 = k
      · simp only [jsObjSet, if_pos h1] at hx
        rcases List.mem_cons.1 hx with h | h
        · exact Or.inl h
        · exact Or.inr (List.mem_cons_of_mem _ h)
      · simp only [jsObjSet, if_neg h1] at hx
        rcases List.mem_cons.1 hx with h | h
        · exact Or.inr (by simp [h])
        · rcases ih h with h2 | h2
          · exact Or.inl h2
          · exact Or.inr (List.mem_cons_of_mem _ h2)

theorem assocLookup_mem {α : Type} {m : List (List Char × α)} {k : List Char} {v : α}
    (h : assocLookup m k = some v) : (k, v) ∈ m := by
  induction m with
  | nil => simp [assocLookup, List.lookup] at h
  | cons e rest ih =>
      obtain ⟨k1, v1⟩ := e
      rw [assocLookup_cons] at h
      by_cases hk : k = k1
      · rw [if_pos hk] at h
        cases h
        simp [hk]
      · rw [if_neg hk] at h
        exact List.mem_cons_of_mem _ (ih h)

/-- The last `Component` class with a name in a file's class list — the
one whose record survives in `detailByFilePath` (the scan loop assigns
`detailByFilePath[absTs]` once per class, so the last assignment wins). -/
def lastNamed : List ScannedClass → Option ScannedClass
  | [] => none
  | c :: rest =>
      match lastNamed rest with
      | some d => some d
      | none => if c.className.isEmpty then none else some c

/-- Structural well-formedness of the index under construction: detail
keys are distinct, every class-map path list is duplicate-free, and every
listed path has a detail record (referential integrity). -/
def GoodState
    (st : List (List Char × CmpInfo) × List (List Char × List (List Char))) : Prop :=
  (st.1.map Prod.fst).Nodup ∧
  (∀ e ∈ st.2, e.2.Nodup) ∧
  (∀ cls ps, assocLookup st.2 cls = some ps →
    ∀ p ∈ ps, ∃ r, assocLookup st.1 p = some r)

/-- The path `fp` is listed under class name `cls` in the class map. -/
def PathListed
    (st : List (List Char × CmpInfo) × List (List Char × List (List Char)))
    (cls fp : List Char) : Prop :=
  ∃ ps, assocLookup st.2 cls = some ps ∧ fp ∈ ps

theorem prev_nodup
    {st : List (List Char × CmpInfo) × List (List Char × List (List Char))}
    (hg : GoodState st) (cname : List Char) :
    ((assocLookup st.2 cname).getD []).Nodup := by
  cases hl : assocLookup st.2 cname with
  | none => simp
  | some ps =>
      have := hg.2.1 (cname, ps) (assocLookup_mem hl)
      simpa using this

theorem entry_nodup {prev : List (List Char)} (fp : List Char) (h : prev.Nodup) :
    (if prev.contains fp then prev else prev ++ [fp]).Nodup := by
  by_cases hc : prev.contains fp
  · rw [if_pos hc]; exact h
  · rw [if_neg hc]
    rw [List.nodup_append]
    refine ⟨h, List.nodup_singleton fp, ?_⟩
    intro a ha ha2
    rw [List.mem_singleton] at ha2
    subst ha2
    exact hc (List.elem_iff.2 ha)

theorem mem_entry {prev : List (List Char)} (fp : List Char) :
    fp ∈ (if prev.contains fp then prev else prev ++ [fp]) := by
  by_cases hc : prev.contains fp
  · rw [if_pos hc]
    exact List.elem_iff.1 hc
  · rw [if_neg hc]
    simp

theorem mem_entry_of_mem {prev : List (List Char)} {p : List Char} (fp : List Char)
    (hp : p ∈ prev) :
    p ∈ (if prev.contains fp then prev else prev ++ [fp]) := by
  by_cases hc : prev.contains fp
  · rw [if_pos hc]; exact hp
  · rw [if_neg hc]; exact List.mem_append_left _ hp

theorem of_mem_entry {prev : List (List Char)} {p fp : List Char}
    (h : p ∈ (if prev.contains fp then prev else prev ++ [fp])) :
    p ∈ prev ∨ p = fp := by
  by_cases hc : prev.contains fp
  · rw [if_pos hc] at h; exact Or.inl h
  · rw [if_neg hc] at h
    rcases List.mem_append.1 h with h | h
    · exact Or.inl h
    · exact Or.inr (List.mem_singleton.1 h)

theorem scanClassStep_good (fp : List Char)
    {st : List (List Char × CmpInfo) × List (List Char × List (List Char))}
    (c : ScannedClass) (hg : GoodState st) : GoodState (scanClassStep fp st c) := by
  by_cases hn : c.className.isEmpty
  · simpa [scanClassStep, hn] using hg
  · simp only [scanClassStep, if_neg hn]
    refine ⟨jsObjSet_fst_nodup _ _ _ hg.1, ?_, ?_⟩
    · intro e he
      rcases jsObjSet_mem he with he2 | he2
      · subst he2
        exact entry_nodup fp (prev_nodup hg c.className)
      · exact hg.2.1 e he2
    · intro cls ps hlook p hp
      have hdetail : ∀ r0 : CmpInfo, (∃ r, assocLookup st.1 p = some r) ∨ p = fp →
          ∃ r, assocLookup (jsObjSet st.1 fp
            ⟨c.className, fp, c.templateUrl⟩) p = some r := by
        intro r0 h
        by_cases hpf : p = fp
        · exact ⟨⟨c.className, fp, c.templateUrl⟩, by rw [jsObjSet_lookup, if_pos hpf]⟩
        · rcases h with ⟨r, hr⟩ | h
          · exact ⟨r, by rw [jsObjSet_lookup, if_neg hpf]; exact hr⟩
          · exact absurd h hpf
      rw [jsObjSet_lookup] at hlook
      by_cases hcls : cls = c.className
      · rw [if_pos hcls] at hlook
        cases hlook
        rcases of_mem_entry hp with hp2 | hp2
        · refine hdetail ⟨[], [], none⟩ (Or.inl ?_)
          cases hl : assocLookup st.2 c.className with
          | none => rw [hl] at hp2; simp at hp2
          | some ps0 =>
              rw [hl] at hp2
              exact hg.2.2 c.className ps0 hl p (by simpa using hp2)
        · exact hdetail ⟨[], [], none⟩ (Or.inr hp2)
      · rw [if_neg hcls] at hlook
        exact hdetail ⟨[], [], none⟩ (Or.inl (hg.2.2 cls ps hlook p hp))

theorem foldl_scanClassStep_good (fp : List Char) :
    ∀ (classes : List ScannedClass)
      (st : List (List Char × CmpInfo) × List (List Char × List (List Char))),
      GoodState st → GoodState (classes.foldl (scanClassStep fp) st) := by
  intro classes
  induction classes with
  | nil => intro st h; exact h
  | cons c rest ih =>
      intro st h
      exact ih _ (scanClassStep_good fp c h)

theorem buildIndex_good (files : List ScannedFile) : GoodState (buildIndex files) := by
  have base : GoodState ([], []) := by
    refine ⟨by simp, by simp, ?_⟩
    intro cls ps h
    simp [assocLookup, List.lookup] at h
  have main : ∀ (fs : List ScannedFile) st, GoodState st →
      GoodState (fs.foldl scanFileStep st) := by
    intro fs
    induction fs with
    | nil => intro st h; exact h
    | cons f rest ih =>
        intro st h
        exact ih _ (foldl_scanClassStep_good f.filePath f.classes st h)
  exact main files ([], []) base

theorem scanClassStep_mono {st : List (List Char × CmpInfo) ×
    List (List Char × List (List Char))} {cls fp : List Char}
    (fp2 : List Char) (c : ScannedClass) (h : PathListed st cls fp) :
    PathListed (scanClassStep fp2 st c) cls fp := by
  by_cases hn : c.className.isEmpty
  · simpa [scanClassStep, hn] using h
  · simp only [scanClassStep, if_neg hn]
    obtain ⟨ps, hps, hmem⟩ := h
    by_cases hcls : cls = c.className
    · subst hcls
      refine ⟨_, by rw [jsObjSet_lookup, if_pos rfl], ?_⟩
      rw [hps]
      exact mem_entry_of_mem fp2 hmem
    · exact ⟨ps, by rw [jsObjSet_lookup, if_neg hcls]; exact hps, hmem⟩

theorem foldl_scanClassStep_mono (fp2 : List Char) {cls fp : List Char} :
    ∀ (classes : List ScannedClass)
      (st : List (List Char × CmpInfo) × List (List Char × List (List Char))),
      PathListed st cls fp →
      PathListed (classes.foldl (scanClassStep fp2) st) cls fp := by
  intro classes
  induction classes with
  | nil => intro st h; exact h
  | cons c rest ih =>
      intro st h
      exact ih _ (scanClassStep_mono fp2 c h)

theorem foldl_scanFileStep_mono {cls fp : List Char} :
    ∀ (fs : List ScannedFile)
      (st : List (List Char × CmpInfo) × List (List Char × List (List Char))),
      PathListed st cls fp →
      PathListed (fs.foldl scanFileStep st) cls fp := by
  intro fs
  induction fs with
  | nil => intro st h; exact h
  | cons f rest ih =>
      intro st h
      exact ih _ (foldl_scanClassStep_mono f.filePath f.classes st h)

theorem scanClassStep_lists (fp : List Char)
    (st : List (List Char × CmpInfo) × List (List Char × List (List Char)))
    (c : ScannedClass) (hn : ¬ c.className.isEmpty) :
    PathListed (scanClassStep fp st c) c.className fp := by
  simp only [scanClassStep, if_neg hn]
  exact ⟨_, by rw [jsObjSet_lookup, if_pos rfl], mem_entry fp⟩

theorem foldl_scanClassStep_reach (fp : List Char) :
    ∀ (classes : List ScannedClass)
      (st : List (List Char × CmpInfo) × List (List Char × List (List Char)))
      (c : ScannedClass), c ∈ classes → ¬ c.className.isEmpty →
      PathListed (classes.foldl (scanClassStep fp) st) c.className fp := by
  intro classes
  induction classes with
  | nil => intro st c hc; exact absurd hc (List.not_mem_nil c)
  | cons c1 rest ih =>
      intro st c hc hn
      rcases List.mem_cons.1 hc with h | h
      · subst h
        exact foldl_scanClassStep_mono fp rest _ (scanClassStep_lists fp st c hn)
      · exact ih _ c h hn

theorem buildIndex_reach :
    ∀ (files : List ScannedFile)
      (st : List (List Char × CmpInfo) × List (List Char × List (List Char)))
      (f : ScannedFile), f ∈ files → ∀ c ∈ f.classes, ¬ c.className.isEmpty →
      PathListed (files.foldl scanFileStep st) c.className f.filePath := by
  intro files
  induction files with
  | nil => intro st f hf; exact absurd hf (List.not_mem_nil f)
  | cons g rest ih =>
      intro st f hf c hc hn
      rcases List.mem_cons.1 hf with h | h
      · subst h
        exact foldl_scanFileStep_mono rest _
          (foldl_scanClassStep_reach f.filePath f.classes st c hc hn)
      · exact ih _ f h c hc hn

theorem foldl_scanClassStep_last (fp : List Char) :
    ∀ (classes : List ScannedClass)
      (st : List (List Char × CmpInfo) × List (List Char × List (List Char))),
      assocLookup ((classes.foldl (scanClassStep fp) st).1) fp =
        (match lastNamed classes with
         | some c => some ⟨c.className, fp, c.templateUrl⟩
         | none => assocLookup st.1 fp) := by
  intro classes
  induction classes with
  | nil => intro st; rfl
  | cons c rest ih =>
      intro st
      rw [List.foldl_cons, ih]
      cases hl : lastNamed rest with
      | some d => simp only [lastNamed, hl]
      | none =>
          simp only [lastNamed, hl]
          by_cases hn : c.className.isEmpty
          · simp only [scanClassStep, if_pos hn, if_pos hn]
          · simp only [scanClassStep, if_neg hn, if_neg hn]
            rw [jsObjSet_lookup, if_pos rfl]

theorem foldl_scanClassStep_other (fp fp2 : List Char) (hne : fp2 ≠ fp) :
    ∀ (classes : List ScannedClass)
      (st : List (List Char × CmpInfo) × List (List Char × List (List Char))),
      assocLookup ((classes.foldl (scanClassStep fp) st).1) fp2 =
        assocLookup st.1 fp2 := by
  intro classes
  induction classes with
  | nil => intro st; rfl
  | cons c rest ih =>
      intro st
      rw [List.foldl_cons, ih]
      by_cases hn : c.className.isEmpty
      · simp only [scanClassStep, if_pos hn]
      · simp only [scanClassStep, if_neg hn]
        rw [jsObjSet_lookup, if_neg hne]

theorem foldl_scanFileStep_other :
    ∀ (fs : List ScannedFile)
      (st : List (List Char × CmpInfo) × List (List Char × List (List Char)))
      (fp : List Char), fp ∉ fs.map (fun f => f.filePath) →
      assocLookup ((fs.foldl scanFileStep st).1) fp = assocLookup st.1 fp := by
  intro fs
  induction fs with
  | nil => intro st fp _; rfl
  | cons g rest ih =>
      intro st fp hfp
      have h1 : fp ∉ rest.map (fun f => f.filePath) := by
        intro h; exact hfp (by simp [h])
      have h2 : fp ≠ g.filePath := by
        intro h; exact hfp (by simp [h])
      rw [List.foldl_cons, ih _ fp h1]
      exact foldl_scanClassStep_other g.filePath fp h2 g.classes st

theorem buildIndex_last :
    ∀ (files : List ScannedFile)
      (st : List (List Char × CmpInfo) × List (List Char × List (List Char)))
      (f : ScannedFile), f ∈ files → (files.map (fun f => f.filePath)).Nodup →
      ∀ c, lastNamed f.classes = some c →
      assocLookup ((files.foldl scanFileStep st).1) f.filePath =
        some ⟨c.className, f.filePath, c.templateUrl⟩ := by
  intro files
  induction files with
  | nil => intro st f hf; exact absurd hf (List.not_mem_nil f)
  | cons g rest ih =>
      intro st f hf hnd c hc
      simp only [List.map_cons, List.nodup_cons] at hnd
      rcases List.mem_cons.1 hf with h | h
      · subst h
        have hnotin : f.filePath ∉ rest.map (fun f2 => f2.filePath) := hnd.1
        rw [List.foldl_cons, foldl_scanFileStep_other rest _ f.filePath hnotin]
        rw [show scanFileStep st f = f.classes.foldl (scanClassStep f.filePath) st
            from rfl]
        rw [foldl_scanClassStep_last f.filePath f.classes st, hc]
      · exact ih _ f h hnd.2 c hc

/-- The file paths contributed to class name `cls` by the scan, in
iteration order: for each file in scan order, one occurrence of its path
per named `Component` class called `cls` it declares. -/
def classContribs (cls : List Char) (files : List ScannedFile) : List (List Char) :=
  files.bind (fun f =>
    (f.classes.filter (fun c => !c.className.isEmpty && c.className == cls)).map
      (fun _ => f.filePath))

/-- The code's append-with-dedup on a class's path list: push the file
path unless it is already present (`if (!...includes(absTs)) push(absTs)`). -/
def appendDedup (acc : List (List Char)) (fp : List Char) : List (List Char) :=
  if acc.contains fp then acc else acc ++ [fp]

/-- One contribution applied to the current (possibly absent) path list of
a class: create the list if missing, then append-with-dedup. -/
def stepOpt (o : Option (List (List Char))) (fp : List Char) :
    Option (List (List Char)) :=
  some (appendDedup (o.getD []) fp)

theorem foldl_stepOpt_some :
    ∀ (l : List (List Char)) (acc : List (List Char)),
      l.foldl stepOpt (some acc) = some (l.foldl appendDedup acc) := by
  intro l
  induction l with
  | nil => intro acc; rfl
  | cons x rest ih =>
      intro acc
      rw [List.foldl_cons, List.foldl_cons]
      exact ih (appendDedup acc x)

theorem foldl_scanClassStep_classmap (fp cls : List Char) :
    ∀ (classes : List ScannedClass)
      (st : List (List Char × CmpInfo) × List (List Char × List (List Char))),
      assocLookup ((classes.foldl (scanClassStep fp) st).2) cls =
        ((classes.filter (fun c => !c.className.isEmpty && c.className == cls)).map
          (fun _ => fp)).foldl stepOpt (assocLookup st.2 cls) := by
  intro classes
  induction classes with
  | nil => intro st; rfl
  | cons c rest ih =>
      intro st
      rw [List.foldl_cons, ih]
      by_cases hn : c.className.isEmpty
      · have hpred : (!c.className.isEmpty && c.className == cls) = false := by
          rw [hn]; rfl
        rw [List.filter_cons_of_neg (by rw [hpred]; exact Bool.false_ne_true)]
        rw [show scanClassStep fp st c = st from by simp [scanClassStep, hn]]
      · by_cases hcls : c.className = cls
        · have hpred : (!c.className.isEmpty && c.className == cls) = true := by
            rw [Bool.and_eq_true, beq_iff_eq]
            exact ⟨by rw [Bool.not_eq_true', ← Bool.not_eq_true]; simpa using hn, hcls⟩
          rw [List.filter_cons_of_pos (by rw [hpred]), List.map_cons, List.foldl_cons]
          have hstep : assocLookup ((scanClassStep fp st c).2) cls =
              stepOpt (assocLookup st.2 cls) fp := by
            simp only [scanClassStep, if_neg hn]
            rw [← hcls, jsObjSet_lookup, if_pos rfl, hcls]
            rfl
          rw [hstep]
        · have hpred : (!c.className.isEmpty && c.className == cls) = false := by
            rw [Bool.and_eq_false_iff]
            exact Or.inr (beq_eq_false_iff_ne.2 hcls)
          rw [List.filter_cons_of_neg (by rw [hpred]; exact Bool.false_ne_true)]
          have hstep : assocLookup ((scanClassStep fp st c).2) cls =
              assocLookup st.2 cls := by
            simp only [scanClassStep, if_neg hn]
            rw [jsObjSet_lookup, if_neg (fun hh => hcls hh.symm)]
          rw [hstep]

theorem foldl_scanFileStep_classmap (cls : List Char) :
    ∀ (fs : List ScannedFile)
      (st : List (List Char × CmpInfo) × List (List Char × List (List Char))),
      assocLookup ((fs.foldl scanFileStep st).2) cls =
        (classContribs cls fs).foldl stepOpt (assocLookup st.2 cls) := by
  intro fs
  induction fs with
  | nil => intro st; rfl
  | cons f rest ih =>
      intro st
      rw [List.foldl_cons, ih]
      have hsplit : classContribs cls (f :: rest) =
          ((f.classes.filter (fun c => !c.className.isEmpty && c.className == cls)).map
            (fun _ => f.filePath)) ++ classContribs cls rest := by
        simp [classContribs]
      rw [hsplit, List.foldl_append, ← foldl_scanClassStep_classmap f.filePath cls f.classes st]
      rfl

/-- The class-map lists in the built index, exactly: the list stored under
a class name is the fold of append-if-absent over that class's
contributions in scan iteration order — first-seen order, de-duplicated —
and the key is absent exactly when the class never occurs. -/
theorem buildIndex_classmap_order (files : List ScannedFile) (cls : List Char) :
    assocLookup (buildIndex files).2 cls =
      (if classContribs cls files = [] then none
       else some ((classContribs cls files).foldl appendDedup [])) := by
  have h := foldl_scanFileStep_classmap cls files ([], [])
  rw [show (buildIndex files).2 = ((files.foldl scanFileStep ([], [])).2) from rfl, h]
  cases hc : classContribs cls files with
  | nil => rfl
  | cons x rest =>
      rw [if_neg (by simp)]
      rw [List.foldl_cons, List.foldl_cons]
      rw [show stepOpt (assocLookup ([] : List (List Char × List (List Char))) cls) x =
          some (appendDedup [] x) from rfl]
      exact foldl_stepOpt_some rest (appendDedup [] x)

/-- C5 counterexample: a file declaring two `Component` classes `A` and
`B` yields a `detailByFilePath` keyed by the file path alone, holding only
the *last* class's record — there is no record with identifier `A`
anywhere in `detailByFilePath`, although class `A` was found and is listed
in `filePathsByClassName`. -/
theorem index_loses_first_class_counterexample :
    (buildIndex [⟨"a.ts".toList, [⟨"A".toList, none⟩, ⟨"B".toList, none⟩]⟩]).1 =
      [("a.ts".toList, ⟨"B".toList, "a.ts".toList, none⟩)] ∧
    (¬ ∃ e ∈ (buildIndex [⟨"a.ts".toList,
        [⟨"A".toList, none⟩, ⟨"B".toList, none⟩]⟩]).1,
      e.2.className = "A".toList) ∧
    assocLookup (buildIndex [⟨"a.ts".toList,
        [⟨"A".toList, none⟩, ⟨"B".toList, none⟩]⟩]).2 "A".toList =
      some ["a.ts".toList] := by
  refine ⟨?_, ?_, ?_⟩ <;> decide

/-- C5 amended: the built index holds exactly one `ComponentRecord` per
*file path* (not per `(filePath, identifierName)` pair): detail keys are
duplicate-free, every named `Component` class contributes its file path
under its identifier in `filePathsByClassName`, every listed path has a
detail record, `filePathsByClassName` is built by appending each
contributing file path under its class name in scan iteration order,
de-duplicated, preserving first-seen order (its lists are exactly the
append-if-absent fold over the contributions, hence duplicate-free), and
— for distinct file paths — the record stored for a file is that of the
*last* named class the file declares. -/
theorem index_one_record_per_file_path :
    ∀ (files : List ScannedFile),
      ((buildIndex files).1.map Prod.fst).Nodup ∧
      (∀ e ∈ (buildIndex files).2, e.2.Nodup) ∧
      (∀ cls ps, assocLookup (buildIndex files).2 cls = some ps →
        ∀ p ∈ ps, ∃ r, assocLookup (buildIndex files).1 p = some r) ∧
      (∀ f ∈ files, ∀ c ∈ f.classes, ¬ c.className.isEmpty →
        ∃ ps, assocLookup (buildIndex files).2 c.className = some ps ∧
          f.filePath ∈ ps) ∧
      ((files.map (fun f => f.filePath)).Nodup →
        ∀ f ∈ files, ∀ c, lastNamed f.classes = some c →
        assocLookup (buildIndex files).1 f.filePath =
          some ⟨c.className, f.filePath, c.templateUrl⟩) ∧
      (∀ cls, assocLookup (buildIndex files).2 cls =
        (if classContribs cls files = [] then none
         else some ((classContribs cls files).foldl appendDedup []))) := by
  intro files
  obtain ⟨hg1, hg2, hg3⟩ := buildIndex_good files
  refine ⟨hg1, hg2, hg3, ?_, ?_, ?_⟩
  · intro f hf c hc hn
    exact buildIndex_reach files ([], []) f hf c hc hn
  · intro hnd f hf c hc
    exact buildIndex_last files ([], []) f hf hnd c hc
  · intro cls
    exact buildIndex_classmap_order files cls

/-- Witness for C5's amended theorem: on the two-class counterexample
input the surviving record under the file path is the last class's, and
the first class's path list is exactly its first-seen-order fold. -/
theorem index_one_record_per_file_path_witness :
    assocLookup (buildIndex [⟨"a.ts".toList,
        [⟨"A".toList, none⟩, ⟨"B".toList, none⟩]⟩]).1 "a.ts".toList =
      some ⟨"B".toList, "a.ts".toList, none⟩ ∧
    assocLookup (buildIndex [⟨"a.ts".toList,
        [⟨"A".toList, none⟩, ⟨"B".toList, none⟩]⟩]).2 "A".toList =
      some ["a.ts".toList] := by
  constructor
  · exact (index_one_record_per_file_path
        [⟨"a.ts".toList, [⟨"A".toList, none⟩, ⟨"B".toList, none⟩]⟩]).2.2.2.2.1
      (by decide) ⟨"a.ts".toList, [⟨"A".toList, none⟩, ⟨"B".toList, none⟩]⟩
      (by decide) ⟨"B".toList, none⟩ (by decide)
  · rw [(index_one_record_per_file_path
        [⟨"a.ts".toList, [⟨"A".toList, none⟩, ⟨"B".toList, none⟩]⟩]).2.2.2.2.2
      "A".toList]
    decide

end NgxLocator
